import Mathlib

/-!
Verification development for the TEI-RDFa extraction engine
(`src/tei-rdfa/__init__.py`).

The embedding models XML elements as a rooted tree of nodes carrying an
attribute list, optional direct text, optional tail text and ordered
children; the RDF graph is modelled as the sequence of triples handed to
`graph.add` during a traversal (the underlying graph deduplicates, but the
claims are about which triples get added).  All functions keep the names of
the Python helpers they embed.
-/

set_option autoImplicit false
set_option linter.unusedVariables false

namespace TeiRdfa

/-- Characterwise test that the first list is a prefix of the second
(Python `str.startswith` restricted to what the code needs). -/
def startsWithChars : List Char → List Char → Bool
  | [], _ => true
  | _ :: _, [] => false
  | a :: as, b :: bs => a = b && startsWithChars as bs

/-- Substring containment over char lists (Python `needle in hay`). -/
def containsSub (ndl : List Char) : List Char → Bool
  | [] => ndl.isEmpty
  | c :: cs => startsWithChars ndl (c :: cs) || containsSub ndl cs

/-- String-level substring containment: `str_contains hay ndl` is the
Python expression `ndl in hay`. -/
def str_contains (hay ndl : String) : Bool :=
  containsSub ndl.data hay.data

/-- Characters of the portion of a list strictly before the first
occurrence of `ndl` (Python `hay.split(ndl)[0]` when `ndl in hay`). -/
def beforeFirst (ndl : List Char) : List Char → List Char
  | [] => []
  | c :: cs => if startsWithChars ndl (c :: cs) then [] else c :: beforeFirst ndl cs

/-- Splits a char list at the first colon, returning the part before and
the part after it (Python `s.split(':', 1)` when a colon is present). -/
def splitAtFirstColon : List Char → Option (List Char × List Char)
  | [] => none
  | c :: cs =>
    if c = ':' then some ([], cs)
    else
      match splitAtFirstColon cs with
      | some (p, l) => some (c :: p, l)
      | none => none

/-- Whether a char list contains a colon (Python `':' in s`). -/
def hasColon : List Char → Bool
  | [] => false
  | c :: cs => c = ':' || hasColon cs

/-- Whitespace split accumulator: splits on runs of whitespace, dropping
empty pieces, exactly like Python `str.split()` with no argument. -/
def splitWsAux : List Char → List Char → List String
  | [], acc => if acc.isEmpty then [] else [String.mk acc.reverse]
  | c :: cs, acc =>
    if c.isWhitespace then
      (if acc.isEmpty then [] else [String.mk acc.reverse]) ++ splitWsAux cs []
    else
      splitWsAux cs (c :: acc)

/-- Python `str.split()` (no argument): split on whitespace runs. -/
def pySplit (s : String) : List String :=
  splitWsAux s.data []

/-- Leading and trailing whitespace removal over char lists. -/
def trimChars (cs : List Char) : List Char :=
  ((cs.dropWhile Char.isWhitespace).reverse.dropWhile Char.isWhitespace).reverse

/-- Python `str.strip()` with no argument. -/
def pyStrip (s : String) : String :=
  String.mk (trimChars s.data)

/-- An association list lookup returning the first binding of the key;
models access to a Python dict in which later assignments are prepended. -/
def lookupStr : List (String × String) → String → Option String
  | [], _ => none
  | (k, v) :: rest, key => if k = key then some v else lookupStr rest key

/-- An XML node: comment flag, attribute list, direct text, tail text and
ordered children.  `tail` is carried to show the engine never reads it. -/
inductive Elem : Type where
  | mk (isComment : Bool) (attrib : List (String × String)) (text : Option String)
      (tail : Option String) (children : List Elem) : Elem

/-- Whether the node is an XML comment. -/
def Elem.isComment : Elem → Bool
  | .mk c _ _ _ _ => c

/-- The node's attribute list. -/
def Elem.attrib : Elem → List (String × String)
  | .mk _ a _ _ _ => a

/-- The node's direct text content, if any. -/
def Elem.text : Elem → Option String
  | .mk _ _ t _ _ => t

/-- The node's tail text, if any (never read by the engine). -/
def Elem.tail : Elem → Option String
  | .mk _ _ _ t _ => t

/-- The node's ordered child list. -/
def Elem.children : Elem → List Elem
  | .mk _ _ _ _ cs => cs

/-- Attribute access: `e.getAttr k` is Python `element.attrib.get(k)`;
`(e.getAttr k).isSome` is the membership test `k in element.attrib`. -/
def Elem.getAttr (e : Elem) (k : String) : Option String :=
  lookupStr e.attrib k

/-- An RDF object position: URI reference or literal string. -/
inductive RDFObject : Type where
  | uri (s : String) : RDFObject
  | lit (s : String) : RDFObject
  deriving DecidableEq

/-- An RDF triple as handed to `graph.add`. -/
structure Triple : Type where
  subj : String
  pred : String
  obj : RDFObject
  deriving DecidableEq

/-- The `rdf:type` predicate URI (`RDF.type` in the source). -/
def RDF_type : String := "http://www.w3.org/1999/02/22-rdf-syntax-ns#type"

/-- The Dublin Core namespace (`str(DC)` in the source). -/
def DC_str : String := "http://purl.org/dc/elements/1.1/"

/-- The RDF namespace (`str(RDF)` in the source). -/
def RDF_str : String := "http://www.w3.org/1999/02/22-rdf-syntax-ns#"

/-- The RDFS namespace (`str(RDFS)` in the source). -/
def RDFS_str : String := "http://www.w3.org/2000/01/rdf-schema#"

/-- Embedding of `expand_uri(uri_ref, prefix_map)`: if the token contains a
colon, split at the first colon; when the part before it is a key of the
table, concatenate that key's base URI with the rest; otherwise (unknown
key, or no colon at all) return the token unchanged. -/
def expand_uri (uri_ref : String) (pm : List (String × String)) : String :=
  match splitAtFirstColon uri_ref.data with
  | some (p, l) =>
    match lookupStr pm (String.mk p) with
    | some base => base ++ String.mk l
    | none => uri_ref
  | none => uri_ref

/-- Embedding of `determine_subject(element, parent_subject, prefix_map)`:
`about` wins; else `resource` when none of `property`, `rel`, `rev` is
present; else the parent subject is inherited unchanged. -/
def determine_subject (element : Elem) (parent_subject : Option String)
    (pm : List (String × String)) : Option String :=
  match element.getAttr "about" with
  | some a => some (expand_uri a pm)
  | none =>
    if (element.getAttr "resource").isSome
        && !(element.getAttr "property").isSome
        && !((element.getAttr "rel").isSome || (element.getAttr "rev").isSome) then
      some (expand_uri ((element.getAttr "resource").getD "") pm)
    else
      parent_subject

/-- Python truthiness of the current subject (`if current_subject:`):
`none` and the empty string are falsy. -/
def subjTruthy : Option String → Bool
  | none => false
  | some s => !(s == "")

/-- Python `subject or parent_subject`: a falsy first operand (absent or
the empty string) falls back to the second. -/
def pyOrOpt : Option String → Option String → Option String
  | none, b => b
  | some s, b => if s == "" then b else some s

/-- Embedding of the nested `get_clean_text(node)` helper of
`determine_property_object`: a comment contributes no text, otherwise the
node's direct text stripped of surrounding whitespace (absent text gives
the empty string). -/
def get_clean_text (node : Elem) : String :=
  if node.isComment then ""
  else
    match node.text with
    | none => ""
    | some t => if t == "" then "" else pyStrip t

/-- Single-space join (Python `' '.join(parts)`). -/
def joinSpace : List String → String
  | [] => ""
  | [x] => x
  | x :: y :: rest => x ++ " " ++ joinSpace (y :: rest)

/-- Embedding of `determine_property_object(element, prefix_map)`: the
verbatim `content` attribute when present; else the element's own stripped
text when non-empty; else the space-joined non-empty stripped texts of its
children; else no value. -/
def determine_property_object (element : Elem) (pm : List (String × String)) :
    Option String :=
  match element.getAttr "content" with
  | some c => some c
  | none =>
    let elem_text := get_clean_text element
    if elem_text == "" then
      let text_parts := (element.children.map get_clean_text).filter (fun t => !(t == ""))
      if text_parts.isEmpty then none else some (joinSpace text_parts)
    else
      some elem_text

/-- Embedding of `process_typeof(element, subject, graph, prefix_map)` as
the list of triples it adds. -/
def process_typeof (element : Elem) (subject : String)
    (pm : List (String × String)) : List Triple :=
  match element.getAttr "typeof" with
  | none => []
  | some tval =>
    (pySplit tval).map (fun t => ⟨subject, RDF_type, .uri (expand_uri t pm)⟩)

/-- Embedding of `process_property(element, subject, graph, prefix_map)`
as the list of triples it adds, in order. -/
def process_property (element : Elem) (subject : String)
    (pm : List (String × String)) : List Triple :=
  match element.getAttr "property" with
  | none => []
  | some pval =>
    (pySplit pval).map (fun prop =>
      let expanded_prop := expand_uri prop pm
      match element.getAttr "resource" with
      | some r => ⟨subject, expanded_prop, .uri (expand_uri r pm)⟩
      | none =>
        match determine_property_object element pm with
        | some v => ⟨subject, expanded_prop, .lit v⟩
        | none => ⟨subject, expanded_prop, .lit ""⟩)

mutual

/-- All proper descendants of a node in document (pre-)order; the node
itself is excluded, matching the XPath `.//*` axis start. -/
def descendants : Elem → List Elem
  | .mk _ _ _ _ cs => descendantsList cs

/-- Pre-order flattening of a forest of subtrees. -/
def descendantsList : List Elem → List Elem
  | [] => []
  | c :: rest => c :: (descendants c ++ descendantsList rest)

end

/-- Embedding of `process_rel(element, subject, graph, prefix_map)` as the
list of triples it adds: with a local `resource`, one triple per relation
token; otherwise one triple per relation token and per descendant element
carrying a `resource` attribute (the XPath `.//*[@resource]`, which
matches elements only, not comments). -/
def process_rel (element : Elem) (subject : String)
    (pm : List (String × String)) : List Triple :=
  match element.getAttr "rel" with
  | none => []
  | some rval =>
    let relations := pySplit rval
    match element.getAttr "resource" with
    | some r =>
      let obj_uri := expand_uri r pm
      relations.map (fun rel => ⟨subject, expand_uri rel pm, .uri obj_uri⟩)
    | none =>
      let resource_elems := (descendants element).filter
        (fun d => !d.isComment && (d.getAttr "resource").isSome)
      relations.flatMap (fun rel =>
        resource_elems.map (fun d =>
          ⟨subject, expand_uri rel pm,
            .uri (expand_uri ((d.getAttr "resource").getD "") pm)⟩))

/-- Embedding of `process_rev(element, subject, parent_subject, graph,
prefix_map)` as the list of triples it adds: requires both `rev` and
`resource` on the element itself; the acting subject is the element's own
subject when truthy, else the parent subject; when that is still falsy,
nothing is added. -/
def process_rev (element : Elem) (subject parent_subject : Option String)
    (pm : List (String × String)) : List Triple :=
  if (element.getAttr "rev").isNone || (element.getAttr "resource").isNone then []
  else
    let revs := pySplit ((element.getAttr "rev").getD "")
    let obj_uri := expand_uri ((element.getAttr "resource").getD "") pm
    match pyOrOpt subject parent_subject with
    | none => []
    | some subject_uri =>
      if subject_uri == "" then []
      else
        revs.map (fun rev => ⟨obj_uri, expand_uri rev pm, .uri subject_uri⟩)

mutual

/-- Embedding of `process_element(element, parent_subject, graph,
prefix_map)` as the list of triples it adds: resolve the subject, run the
four processors when the subject is truthy, then recurse into children
with the resolved subject. -/
def process_element (element : Elem) (parent_subject : Option String)
    (pm : List (String × String)) : List Triple :=
  match element with
  | .mk cmt attrs txt tl cs =>
    let e := Elem.mk cmt attrs txt tl cs
    let current_subject := determine_subject e parent_subject pm
    (if subjTruthy current_subject then
      process_typeof e (current_subject.getD "") pm
        ++ process_property e (current_subject.getD "") pm
        ++ process_rel e (current_subject.getD "") pm
        ++ process_rev e current_subject parent_subject pm
    else [])
      ++ process_children cs current_subject pm

/-- Triples added by processing each element of a child list in order,
all with the same inherited subject. -/
def process_children (cs : List Elem) (subj : Option String)
    (pm : List (String × String)) : List Triple :=
  match cs with
  | [] => []
  | c :: rest => process_element c subj pm ++ process_children rest subj pm

end

/-- Embedding of the core of `process_xpath_elements`: given the element
list returned by the XPath evaluator, raise a `ValueError` when it is
empty, otherwise process every matched element with no inherited subject
and return the added triples. -/
def process_xpath_elements (elements : List Elem)
    (pm : List (String × String)) : Except String (List Triple) :=
  if elements.isEmpty then
    .error "No elements matching XPath expression detected in the document."
  else
    .ok (elements.flatMap (fun e => process_element e none pm))

/-- Base URI derived from a `replacementPattern` attribute value inside
`get_tei_prefixes`: the part before the first `$1` when the pattern
contains `$1`; else the part before the first `\x7b$1\x7d` when it contains
that; else the pattern itself. -/
def pattern_base_uri (rp : String) : String :=
  if str_contains rp "$1" then String.mk (beforeFirst "$1".data rp.data)
  else if str_contains rp "\x7b$1\x7d" then
    String.mk (beforeFirst "\x7b$1\x7d".data rp.data)
  else rp

/-- A TEI `prefixDef` element, reduced to the two attributes the code
reads. -/
structure TeiPrefixDef : Type where
  ident : Option String
  replacementPattern : Option String

/-- Accumulating loop of `get_tei_prefixes`: skip entries with a falsy
`ident` or `replacementPattern`, otherwise assign the derived base URI to
the ident (later assignments shadow earlier ones via prepending). -/
def get_tei_prefixes_aux : List TeiPrefixDef → List (String × String) →
    List (String × String)
  | [], m => m
  | pd :: rest, m =>
    match pd.ident with
    | none => get_tei_prefixes_aux rest m
    | some pid =>
      if pid == "" then get_tei_prefixes_aux rest m
      else
        match pd.replacementPattern with
        | none => get_tei_prefixes_aux rest m
        | some rp =>
          if rp == "" then get_tei_prefixes_aux rest m
          else get_tei_prefixes_aux rest ((pid, pattern_base_uri rp) :: m)

/-- Embedding of `get_tei_prefixes`: build the table from the document's
`prefixDef` entries, then add the `dc`, `rdf`, `rdfs` defaults for keys
not already present. -/
def get_tei_prefixes (pds : List TeiPrefixDef) : List (String × String) :=
  let m0 := get_tei_prefixes_aux pds []
  let m1 := if (lookupStr m0 "dc").isSome then m0 else ("dc", DC_str) :: m0
  let m2 := if (lookupStr m1 "rdf").isSome then m1 else ("rdf", RDF_str) :: m1
  if (lookupStr m2 "rdfs").isSome then m2 else ("rdfs", RDFS_str) :: m2

/-- Common fixture: a table binding `ex` to `http://ex.org/`. -/
def pmEx : List (String × String) := [("ex", "http://ex.org/")]

/-- Splitting at the first colon yields `none` exactly when no colon is
present. -/
theorem splitAtFirstColon_none_iff (cs : List Char) :
    splitAtFirstColon cs = none ↔ hasColon cs = false := by
  induction cs with
  | nil => simp [splitAtFirstColon, hasColon]
  | cons c cs ih =>
    by_cases hc : c = ':'
    · simp [splitAtFirstColon, hasColon, hc]
    · simp only [splitAtFirstColon, hasColon, hc, if_neg hc]
      cases h : splitAtFirstColon cs with
      | none => simp [h, hc] at ih ⊢; exact ih
      | some pl => simp [h, hc] at ih ⊢; exact ih

/-- Splitting at the first colon decomposes the list: the part before
the returned colon is colon-free and concatenating the parts around a
colon restores the input. -/
theorem splitAtFirstColon_some (cs : List Char) (p l : List Char)
    (h : splitAtFirstColon cs = some (p, l)) :
    cs = p ++ ':' :: l ∧ hasColon p = false := by
  induction cs generalizing p l with
  | nil => simp [splitAtFirstColon] at h
  | cons c cs ih =>
    by_cases hc : c = ':'
    · subst hc
      simp [splitAtFirstColon] at h
      obtain ⟨rfl, rfl⟩ := h
      simp [hasColon]
    · simp only [splitAtFirstColon, if_neg hc] at h
      cases hs : splitAtFirstColon cs with
      | none => rw [hs] at h; simp at h
      | some pl =>
        obtain ⟨p', l'⟩ := pl
        rw [hs] at h
        simp at h
        obtain ⟨rfl, rfl⟩ := h
        obtain ⟨hdec, hfree⟩ := ih p' l' hs
        constructor
        · simp [hdec]
        · simp [hasColon, hc, hfree]

/-- C1: subject resolution priority.  An `about` attribute always wins and
the result ignores the inherited subject; a `resource` attribute
establishes the subject only when none of `property`, `rel`, `rev` is
present; in every other case the inherited subject is returned unchanged
(possibly absent). -/
theorem C1_subject_priority (e : Elem) (parent : Option String)
    (pm : List (String × String)) :
    (∀ a, e.getAttr "about" = some a →
      determine_subject e parent pm = some (expand_uri a pm))
  ∧ (e.getAttr "about" = none → ∀ r, e.getAttr "resource" = some r →
      e.getAttr "property" = none → e.getAttr "rel" = none →
      e.getAttr "rev" = none →
      determine_subject e parent pm = some (expand_uri r pm))
  ∧ (e.getAttr "about" = none →
      (e.getAttr "resource" = none ∨ (e.getAttr "property").isSome
        ∨ (e.getAttr "rel").isSome ∨ (e.getAttr "rev").isSome) →
      determine_subject e parent pm = parent) := by
  refine ⟨?_, ?_, ?_⟩
  · intro a ha
    simp [determine_subject, ha]
  · intro hab r hr hp hrel hrev
    simp [determine_subject, hab, hr, hp, hrel, hrev]
  · intro hab hcase
    rcases hcase with h | h | h | h <;> simp [determine_subject, hab, h]

/-- Witness for C1 at a concrete element carrying `about="ex:S"` and an
inherited subject that the result ignores. -/
theorem C1_subject_priority_witness :
    (Elem.mk false [("about", "ex:S")] none none []).getAttr "about" = some "ex:S"
  ∧ determine_subject (Elem.mk false [("about", "ex:S")] none none [])
      (some "http://parent/") pmEx = some (expand_uri "ex:S" pmEx) :=
  ⟨rfl, (C1_subject_priority (Elem.mk false [("about", "ex:S")] none none [])
    (some "http://parent/") pmEx).1 "ex:S" rfl⟩

/-- C6: URI expansion is total and matches the split-at-first-colon rule.
A token without a colon is returned unchanged; a token with a colon splits
at the first colon into a colon-free head and a tail, and is expanded to
the table's base URI concatenated with the tail when the head is a key of
the table, else returned unchanged. -/
theorem C6_expand_uri_total (tok : String) (pm : List (String × String)) :
    (hasColon tok.data = false → expand_uri tok pm = tok)
  ∧ (hasColon tok.data = true →
      ∃ p l, splitAtFirstColon tok.data = some (p, l))
  ∧ (∀ p l, splitAtFirstColon tok.data = some (p, l) →
      tok.data = p ++ ':' :: l ∧ hasColon p = false
      ∧ (∀ base, lookupStr pm (String.mk p) = some base →
          expand_uri tok pm = base ++ String.mk l)
      ∧ (lookupStr pm (String.mk p) = none → expand_uri tok pm = tok)) := by
  refine ⟨?_, ?_, ?_⟩
  · intro h
    have hn : splitAtFirstColon tok.data = none :=
      (splitAtFirstColon_none_iff tok.data).2 h
    simp [expand_uri, hn]
  · intro h
    cases hs : splitAtFirstColon tok.data with
    | none =>
      rw [(splitAtFirstColon_none_iff tok.data).1 hs] at h
      exact absurd h (by simp)
    | some pl => exact ⟨pl.1, pl.2, by simp⟩
  · intro p l hs
    obtain ⟨hdec, hfree⟩ := splitAtFirstColon_some tok.data p l hs
    refine ⟨hdec, hfree, ?_, ?_⟩
    · intro base hb
      simp [expand_uri, hs, hb]
    · intro hb
      simp [expand_uri, hs, hb]

/-- Witness for C6 at the token `ex:S` and the `ex` table. -/
theorem C6_expand_uri_total_witness :
    splitAtFirstColon ("ex:S").data = some ("ex".data, "S".data)
  ∧ lookupStr pmEx (String.mk "ex".data) = some "http://ex.org/"
  ∧ expand_uri "ex:S" pmEx = "http://ex.org/" ++ String.mk "S".data :=
  ⟨by decide, by decide,
    ((C6_expand_uri_total "ex:S" pmEx).2.2 "ex".data "S".data (by decide)).2.2.1
      "http://ex.org/" (by decide)⟩

/-- Counterexample to C8 as stated: the token `http://a` is an absolute
URI (it has a colon after its scheme), yet under a prefix table that binds
the key `http` a second expansion changes the string again, so
`expand(expand(x))` differs from `expand(x)`. -/
theorem C8_counterexample :
    hasColon ("http://a").data = true
  ∧ expand_uri (expand_uri "http://a" [("http", "x:"), ("x", "Z")])
      [("http", "x:"), ("x", "Z")]
      ≠ expand_uri "http://a" [("http", "x:"), ("x", "Z")] := by
  constructor
  · decide
  · decide

/-- C8 (amended): expansion is idempotent for every token that is
unprefixed (no colon) or whose part before the first colon is not a key of
the prefix table — which covers absolute URIs whose scheme the table does
not bind. -/
theorem C8_expand_idempotent (x : String) (pm : List (String × String))
    (h : ∀ p l, splitAtFirstColon x.data = some (p, l) →
      lookupStr pm (String.mk p) = none) :
    expand_uri (expand_uri x pm) pm = expand_uri x pm := by
  have hx : expand_uri x pm = x := by
    cases hs : splitAtFirstColon x.data with
    | none => simp [expand_uri, hs]
    | some pl =>
      obtain ⟨p, l⟩ := pl
      simp [expand_uri, hs, h p l hs]
  rw [hx]
  exact hx

/-- Witness for C8 (amended) at the absolute URI `http://a` and a table
that does not bind `http`. -/
theorem C8_expand_idempotent_witness :
    expand_uri (expand_uri "http://a" pmEx) pmEx = expand_uri "http://a" pmEx :=
  C8_expand_idempotent "http://a" pmEx (by
    intro p l hpl
    have hconc : splitAtFirstColon ("http://a").data =
        some ("http".data, "//a".data) := by decide
    rw [hconc] at hpl
    cases hpl
    decide)

/-- C7: when the XPath query result is empty the invocation fails with a
`ValueError` carrying the no-match message, and a triple list is returned
only when at least one element matched. -/
theorem C7_empty_match_fails (elements : List Elem) (pm : List (String × String)) :
    (elements = [] → process_xpath_elements elements pm =
      Except.error "No elements matching XPath expression detected in the document.")
  ∧ (∀ ts, process_xpath_elements elements pm = Except.ok ts → elements ≠ []) := by
  constructor
  · intro h
    subst h
    simp [process_xpath_elements]
  · intro ts hok
    intro h
    subst h
    simp [process_xpath_elements] at hok

/-- Witness for C7: the empty match list yields the error, not a graph. -/
theorem C7_empty_match_fails_witness :
    process_xpath_elements [] pmEx =
      Except.error "No elements matching XPath expression detected in the document." :=
  (C7_empty_match_fails [] pmEx).1 rfl

/-- C5: processing `<a about="ex:S" property="ex:p" content="v"/>` with
`ex` bound to `http://ex.org/` and no inherited subject adds exactly the
one triple (`http://ex.org/S`, `http://ex.org/p`, literal `"v"`). -/
theorem C5_round_trip :
    process_element
      (Elem.mk false [("about", "ex:S"), ("property", "ex:p"), ("content", "v")]
        none none [])
      none pmEx
    = [⟨"http://ex.org/S", "http://ex.org/p", RDFObject.lit "v"⟩] := by
  decide

/-- C2: on an element with a `property` attribute and no `resource`
attribute, exactly one literal triple is added per whitespace-separated
property token, all with the same literal; the literal is the verbatim
`content` attribute when present, else the element's own stripped text
when non-empty, else the space-joined non-empty stripped child texts, else
the empty string (so a triple is still emitted). -/
theorem C2_property_literal (e : Elem) (s : String)
    (pm : List (String × String)) (pval : String)
    (hp : e.getAttr "property" = some pval)
    (hr : e.getAttr "resource" = none) :
    process_property e s pm =
      (pySplit pval).map (fun tok =>
        ⟨s, expand_uri tok pm,
          RDFObject.lit ((determine_property_object e pm).getD "")⟩)
  ∧ (∀ c, e.getAttr "content" = some c →
      determine_property_object e pm = some c)
  ∧ (e.getAttr "content" = none → get_clean_text e ≠ "" →
      determine_property_object e pm = some (get_clean_text e))
  ∧ (e.getAttr "content" = none → get_clean_text e = "" →
      determine_property_object e pm =
        (if ((e.children.map get_clean_text).filter (fun t => !(t == ""))).isEmpty
         then none
         else some (joinSpace
           ((e.children.map get_clean_text).filter (fun t => !(t == "")))))) := by
  refine ⟨?_, ?_, ?_, ?_⟩
  · cases hdo : determine_property_object e pm with
    | none => simp [process_property, hp, hr, hdo]
    | some v => simp [process_property, hp, hr, hdo]
  · intro c hc
    simp [determine_property_object, hc]
  · intro hc ht
    simp [determine_property_object, hc, ht]
  · intro hc ht
    simp [determine_property_object, hc, ht]

/-- Witness for C2 at `<a property="ex:p" content="v"/>` with subject
`http://s/`. -/
theorem C2_property_literal_witness :
    (Elem.mk false [("property", "ex:p"), ("content", "v")] none none []).getAttr
      "property" = some "ex:p"
  ∧ (Elem.mk false [("property", "ex:p"), ("content", "v")] none none []).getAttr
      "resource" = none
  ∧ process_property (Elem.mk false [("property", "ex:p"), ("content", "v")] none none [])
      "http://s/" pmEx =
      (pySplit "ex:p").map (fun tok =>
        ⟨"http://s/", expand_uri tok pmEx,
          RDFObject.lit ((determine_property_object
            (Elem.mk false [("property", "ex:p"), ("content", "v")] none none [])
            pmEx).getD "")⟩) :=
  ⟨rfl, rfl,
    (C2_property_literal (Elem.mk false [("property", "ex:p"), ("content", "v")] none none [])
      "http://s/" pmEx "ex:p" rfl rfl).1⟩

/-- C3: on an element with a `rel` attribute, a local `resource` yields
one triple per relation token with that expanded resource as object;
without a local `resource`, one triple is added per relation token and per
descendant element (any depth) carrying a `resource` attribute; with no
local `resource` and no such descendant nothing is added. -/
theorem C3_rel_objects (e : Elem) (s : String)
    (pm : List (String × String)) (rval : String)
    (h : e.getAttr "rel" = some rval) :
    (∀ r, e.getAttr "resource" = some r →
      process_rel e s pm = (pySplit rval).map
        (fun rel => ⟨s, expand_uri rel pm, RDFObject.uri (expand_uri r pm)⟩))
  ∧ (e.getAttr "resource" = none →
      process_rel e s pm = (pySplit rval).flatMap
        (fun rel =>
          ((descendants e).filter
            (fun d => !d.isComment && (d.getAttr "resource").isSome)).map
            (fun d => ⟨s, expand_uri rel pm,
              RDFObject.uri (expand_uri ((d.getAttr "resource").getD "") pm)⟩)))
  ∧ (e.getAttr "resource" = none →
      (descendants e).filter (fun d => !d.isComment && (d.getAttr "resource").isSome) = [] →
      process_rel e s pm = []) := by
  refine ⟨?_, ?_, ?_⟩
  · intro r hr
    simp [process_rel, h, hr]
  · intro hr
    simp [process_rel, h, hr]
  · intro hr hd
    simp [process_rel, h, hr, hd]

/-- Witness for C3: `rel` with no local `resource` and two descendants
carrying `resource`, one of them nested two levels down. -/
theorem C3_rel_objects_witness :
    (Elem.mk false [("about", "ex:S"), ("rel", "ex:r")] none none
      [Elem.mk false [("resource", "ex:O1")] none none [],
       Elem.mk false [] none none [Elem.mk false [("resource", "ex:O2")] none none []]]).getAttr
      "rel" = some "ex:r"
  ∧ process_rel
      (Elem.mk false [("about", "ex:S"), ("rel", "ex:r")] none none
        [Elem.mk false [("resource", "ex:O1")] none none [],
         Elem.mk false [] none none [Elem.mk false [("resource", "ex:O2")] none none []]])
      "http://ex.org/S" pmEx
    = [⟨"http://ex.org/S", "http://ex.org/r", RDFObject.uri "http://ex.org/O1"⟩,
       ⟨"http://ex.org/S", "http://ex.org/r", RDFObject.uri "http://ex.org/O2"⟩] := by
  refine ⟨rfl, ?_⟩
  have h := (C3_rel_objects
    (Elem.mk false [("about", "ex:S"), ("rel", "ex:r")] none none
      [Elem.mk false [("resource", "ex:O1")] none none [],
       Elem.mk false [] none none [Elem.mk false [("resource", "ex:O2")] none none []]])
    "http://ex.org/S" pmEx "ex:r" rfl).2.1 rfl
  rw [h]
  decide

/-- C4: reverse relations fire only with both `rev` and `resource` on the
element itself; the acting subject is the element's own subject when
truthy, else the parent subject, and when that is still absent or empty
nothing is added; each `rev` token adds one triple with subject and object
swapped; and the result never depends on the element's children (no
descendant search). -/
theorem C4_rev_local (e : Elem) (subject parent_subject : Option String)
    (pm : List (String × String)) :
    ((e.getAttr "rev" = none ∨ e.getAttr "resource" = none) →
      process_rev e subject parent_subject pm = [])
  ∧ (∀ rv r, e.getAttr "rev" = some rv → e.getAttr "resource" = some r →
      (pyOrOpt subject parent_subject = none →
        process_rev e subject parent_subject pm = [])
      ∧ (pyOrOpt subject parent_subject = some "" →
        process_rev e subject parent_subject pm = [])
      ∧ (∀ su, pyOrOpt subject parent_subject = some su → su ≠ "" →
        process_rev e subject parent_subject pm = (pySplit rv).map
          (fun rev => ⟨expand_uri r pm, expand_uri rev pm, RDFObject.uri su⟩)))
  ∧ (∀ cmt attrs txt tl cs cs',
      process_rev (Elem.mk cmt attrs txt tl cs) subject parent_subject pm =
      process_rev (Elem.mk cmt attrs txt tl cs') subject parent_subject pm) := by
  refine ⟨?_, ?_, ?_⟩
  · intro hcase
    rcases hcase with h | h <;> simp [process_rev, h]
  · intro rv r hrv hr
    refine ⟨?_, ?_, ?_⟩
    · intro hsu
      simp [process_rev, hrv, hr, hsu]
    · intro hsu
      simp [process_rev, hrv, hr, hsu]
    · intro su hsu hne
      simp [process_rev, hrv, hr, hsu, hne]
  · intro cmt attrs txt tl cs cs'
    rfl

/-- Witness for C4 at the spec's example `<a about="ex:S"><b rev="ex:r"
resource="ex:O"/></a>`: the inner element inherits the outer subject and
emits the swapped triple. -/
theorem C4_rev_local_witness :
    (Elem.mk false [("rev", "ex:r"), ("resource", "ex:O")] none none []).getAttr
      "rev" = some "ex:r"
  ∧ pyOrOpt (some "http://ex.org/S") (some "http://ex.org/S") = some "http://ex.org/S"
  ∧ process_rev (Elem.mk false [("rev", "ex:r"), ("resource", "ex:O")] none none [])
      (some "http://ex.org/S") (some "http://ex.org/S") pmEx
    = [⟨"http://ex.org/O", "http://ex.org/r", RDFObject.uri "http://ex.org/S"⟩] := by
  refine ⟨rfl, by decide, ?_⟩
  have h := ((C4_rev_local (Elem.mk false [("rev", "ex:r"), ("resource", "ex:O")] none none [])
    (some "http://ex.org/S") (some "http://ex.org/S") pmEx).2.1 "ex:r" "ex:O"
    rfl rfl).2.2 "http://ex.org/S" (by decide) (by decide)
  rw [h]
  decide

/-- C10: when the resolved subject of an element is the empty string, none
of the four attribute processors runs for it (the element contributes no
triples of its own, exactly as with an absent subject), while the empty
string is still propagated to its children as their inherited subject. -/
theorem C10_empty_subject (e : Elem) (parent_subject : Option String)
    (pm : List (String × String))
    (h : determine_subject e parent_subject pm = some "") :
    process_element e parent_subject pm =
      process_children e.children (some "") pm := by
  cases e with
  | mk cmt attrs txt tl cs =>
    simp [process_element, h, subjTruthy, Elem.children]

/-- Witness for C10 at an element with `about=""` whose child still gets
processed (the child establishes its own subject and adds a triple). -/
theorem C10_empty_subject_witness :
    determine_subject
      (Elem.mk false [("about", "")] none none
        [Elem.mk false [("about", "ex:S"), ("property", "ex:p"), ("content", "v")]
          none none []])
      none pmEx = some ""
  ∧ process_element
      (Elem.mk false [("about", "")] none none
        [Elem.mk false [("about", "ex:S"), ("property", "ex:p"), ("content", "v")]
          none none []])
      none pmEx =
    process_children
      (Elem.mk false [("about", "")] none none
        [Elem.mk false [("about", "ex:S"), ("property", "ex:p"), ("content", "v")]
          none none []]).children
      (some "") pmEx :=
  ⟨rfl,
    C10_empty_subject
      (Elem.mk false [("about", "")] none none
        [Elem.mk false [("about", "ex:S"), ("property", "ex:p"), ("content", "v")]
          none none []])
      none pmEx rfl⟩

/-- A prefix of a list stays a prefix after extending the list. -/
theorem startsWithChars_append (n xs ys : List Char)
    (h : startsWithChars n xs = true) :
    startsWithChars n (xs ++ ys) = true := by
  induction n generalizing xs with
  | nil => simp [startsWithChars]
  | cons a as ih =>
    cases xs with
    | nil => simp [startsWithChars] at h
    | cons b bs =>
      simp only [startsWithChars, Bool.and_eq_true, decide_eq_true_eq] at h
      simp only [List.cons_append, startsWithChars, Bool.and_eq_true,
        decide_eq_true_eq]
      exact ⟨h.1, ih bs h.2⟩

/-- Every list starts with itself, whatever follows. -/
theorem startsWithChars_self_append (n ys : List Char) :
    startsWithChars n (n ++ ys) = true := by
  induction n with
  | nil => simp [startsWithChars]
  | cons a as ih => simp [startsWithChars, ih]

/-- A true prefix test exhibits the remainder of the list. -/
theorem startsWithChars_exists (n xs : List Char)
    (h : startsWithChars n xs = true) : ∃ ys, xs = n ++ ys := by
  induction n generalizing xs with
  | nil => exact ⟨xs, rfl⟩
  | cons a as ih =>
    cases xs with
    | nil => simp [startsWithChars] at h
    | cons b bs =>
      simp only [startsWithChars, Bool.and_eq_true, decide_eq_true_eq] at h
      obtain ⟨ys, hys⟩ := ih bs h.2
      exact ⟨ys, by simp [h.1, hys]⟩

/-- Unfolding equation for `beforeFirst` on a non-empty list. -/
theorem beforeFirst_cons (n : List Char) (c : Char) (cs : List Char) :
    beforeFirst n (c :: cs) =
      if startsWithChars n (c :: cs) = true then []
      else c :: beforeFirst n cs := rfl

/-- A list of the shape `b ++ n ++ r` contains `n` as a substring. -/
theorem containsSub_of_append (n b r : List Char) :
    containsSub n (b ++ n ++ r) = true := by
  induction b with
  | nil =>
    cases hn : n with
    | nil =>
      cases r with
      | nil => simp [containsSub]
      | cons c cs => simp [containsSub, startsWithChars]
    | cons m ms =>
      have : (m :: ms) ++ r = m :: (ms ++ r) := by simp
      simp only [List.nil_append, this, containsSub]
      have hsw : startsWithChars (m :: ms) ((m :: ms) ++ r) = true :=
        startsWithChars_self_append (m :: ms) r
      simp only [List.cons_append] at hsw
      simp [hsw]
  | cons c bs ih =>
    have hgoal : containsSub n (c :: (bs ++ n ++ r)) = true := by
      simp only [containsSub, Bool.or_eq_true]
      exact Or.inr ih
    simpa using hgoal

/-- A true substring test exhibits a decomposition around the needle. -/
theorem containsSub_exists (n cs : List Char) (h : containsSub n cs = true) :
    ∃ b r, cs = b ++ n ++ r := by
  induction cs with
  | nil =>
    simp [containsSub, List.isEmpty_iff] at h
    exact ⟨[], [], by simp [h]⟩
  | cons c cs ih =>
    simp only [containsSub, Bool.or_eq_true] at h
    rcases h with h | h
    · obtain ⟨ys, hys⟩ := startsWithChars_exists n (c :: cs) h
      exact ⟨[], ys, by simp [hys]⟩
    · obtain ⟨b, r, hbr⟩ := ih h
      exact ⟨c :: b, r, by simp [hbr]⟩

/-- The part before the first occurrence of a non-empty needle: the input
decomposes as that part, the needle, and a remainder, and the part itself
contains no occurrence of the needle. -/
theorem beforeFirst_decomp (n cs : List Char) (hne : n ≠ [])
    (h : containsSub n cs = true) :
    (∃ r, cs = beforeFirst n cs ++ n ++ r)
  ∧ containsSub n (beforeFirst n cs) = false := by
  induction cs with
  | nil =>
    simp [containsSub, List.isEmpty_iff] at h
    exact absurd h hne
  | cons c cs ih =>
    by_cases hs : startsWithChars n (c :: cs) = true
    · obtain ⟨ys, hys⟩ := startsWithChars_exists n (c :: cs) hs
      have hbf : beforeFirst n (c :: cs) = [] := by
        simp [beforeFirst_cons, hs]
      refine ⟨⟨ys, ?_⟩, ?_⟩
      · rw [hbf]
        simpa using hys
      · rw [hbf]
        cases hn : n with
        | nil => exact absurd hn hne
        | cons m ms => simp [containsSub]
    · have hcs : containsSub n cs = true := by
        simp only [containsSub, Bool.or_eq_true] at h
        rcases h with h | h
        · exact absurd h hs
        · exact h
      obtain ⟨⟨r, hdec⟩, hfree⟩ := ih hcs
      have hbf : beforeFirst n (c :: cs) = c :: beforeFirst n cs := by
        simp [beforeFirst_cons, hs]
      refine ⟨⟨r, ?_⟩, ?_⟩
      · rw [hbf]
        simp only [List.cons_append]
        rw [← hdec]
      · rw [hbf]
        cases hX : startsWithChars n (c :: beforeFirst n cs) with
        | true =>
          exfalso
          have hext := startsWithChars_append n (c :: beforeFirst n cs) (n ++ r) hX
          have heq : (c :: beforeFirst n cs) ++ (n ++ r) = c :: cs := by
            simp only [List.cons_append, List.cons.injEq, true_and]
            rw [← List.append_assoc, ← hdec]
          rw [heq] at hext
          exact hs hext
        | false =>
          simp [containsSub, hX, hfree]

/-- For a needle-free `bs`, the part of `bs ++ "\x7b$1\x7d"` before the
first `$1` is `bs ++ "\x7b"`: the first occurrence of `$1` is the one
inside the appended `\x7b$1\x7d`. -/
theorem beforeFirst_dollar_one (bs : List Char)
    (h : containsSub ['$', '1'] bs = false) :
    beforeFirst ['$', '1'] (bs ++ ['\x7b', '$', '1', '\x7d']) =
      bs ++ ['\x7b'] := by
  induction bs with
  | nil => decide
  | cons c bs ih =>
    have h' : (startsWithChars ['$', '1'] (c :: bs) || containsSub ['$', '1'] bs) = false := h
    rw [Bool.or_eq_false_iff] at h'
    obtain ⟨hsw, hrest⟩ := h'
    have hswx : startsWithChars ['$', '1']
        (c :: (bs ++ ['\x7b', '$', '1', '\x7d'])) = false := by
      cases bs with
      | nil => simp [startsWithChars]
      | cons d ds =>
        simp only [List.cons_append, startsWithChars] at hsw ⊢
        simpa using hsw
    have hstep : beforeFirst ['$', '1'] ((c :: bs) ++ ['\x7b', '$', '1', '\x7d']) =
        c :: beforeFirst ['$', '1'] (bs ++ ['\x7b', '$', '1', '\x7d']) := by
      simp only [List.cons_append]
      simp [beforeFirst_cons, hswx]
    rw [hstep, ih hrest]
    simp

/-- Structure eta for strings: rebuilding a string from its data gives it
back. -/
theorem string_mk_data (s : String) : String.mk s.data = s := rfl

/-- The data of the four-character string literal used by the unreachable
branch. -/
theorem brace_pattern_data : ("\x7b$1\x7d" : String).data = ['\x7b', '$', '1', '\x7d'] := rfl

/-- The data of the two-character needle `$1`. -/
theorem dollar_one_data : ("$1" : String).data = ['$', '1'] := rfl

/-- When the base holds no `$1`, deriving the base URI from
`base ++ "\x7b$1\x7d"` keeps the opening brace: the split happens at the
`$1` inside the brace group. -/
theorem pattern_base_uri_brace (base : String)
    (hb : str_contains base "$1" = false) :
    pattern_base_uri (base ++ "\x7b$1\x7d") = base ++ "\x7b" := by
  have hdata : (base ++ ("\x7b$1\x7d" : String)).data =
      base.data ++ ['\x7b', '$', '1', '\x7d'] := by
    rw [String.data_append, brace_pattern_data]
  have hbase : containsSub ['$', '1'] base.data = false := by
    have h := hb
    unfold str_contains at h
    rwa [dollar_one_data] at h
  have hcontain : str_contains (base ++ "\x7b$1\x7d") "$1" = true := by
    unfold str_contains
    rw [dollar_one_data, hdata]
    have hsplit : base.data ++ ['\x7b', '$', '1', '\x7d'] =
        (base.data ++ ['\x7b']) ++ ['$', '1'] ++ ['\x7d'] := by simp
    rw [hsplit]
    exact containsSub_of_append _ _ _
  unfold pattern_base_uri
  rw [if_pos hcontain]
  refine String.ext ?_
  show beforeFirst ("$1" : String).data (base ++ "\x7b$1\x7d").data =
    (base ++ ("\x7b" : String)).data
  rw [dollar_one_data, hdata, String.data_append,
    beforeFirst_dollar_one base.data hbase]

/-- Building the prefix table from a single `prefixDef` with ident `ex`
and a non-empty replacement pattern binds `ex` to the derived base URI
(the `dc`, `rdf`, `rdfs` defaults do not shadow it). -/
theorem get_tei_prefixes_single (P : String) (hP : ¬ P = "") :
    lookupStr (get_tei_prefixes [⟨some "ex", some P⟩]) "ex" =
      some (pattern_base_uri P) := by
  have hPbeq : (P == "") = false := by
    simp [hP]
  simp [get_tei_prefixes, get_tei_prefixes_aux, lookupStr, hPbeq]

/-- Expansion of an `ex`-prefixed token against a table that binds `ex`. -/
theorem expand_uri_ex (loc : String) (pm : List (String × String))
    (b2 : String) (h : lookupStr pm "ex" = some b2) :
    expand_uri ("ex:" ++ loc) pm = b2 ++ loc := by
  have hsplit : splitAtFirstColon (("ex:" ++ loc)).data =
      some (['e', 'x'], loc.data) := by
    rw [String.data_append]
    show splitAtFirstColon ('e' :: 'x' :: ':' :: loc.data) = _
    simp [splitAtFirstColon]
  unfold expand_uri
  rw [hsplit]
  show (match lookupStr pm "ex" with
    | some b => b ++ String.mk loc.data
    | none => "ex:" ++ loc) = b2 ++ loc
  rw [h, string_mk_data]

/-- C9: the `replacementPattern` handling keeps a stray opening brace.
Whenever a pattern contains `$1` the derived base URI is exactly the part
strictly before the first `$1`; any pattern containing `\x7b$1\x7d` also
contains `$1`, so the branch testing for `\x7b$1\x7d` can never be
reached; hence a pattern `base\x7b$1\x7d` maps the ident to
`base\x7b`, and every expansion with that ident embeds the stray brace. -/
theorem C9_stray_brace (base loc : String)
    (hb : str_contains base "$1" = false) :
    (∀ p : String, str_contains p "$1" = true →
      (∃ rest : List Char,
        p.data = (pattern_base_uri p).data ++ '$' :: '1' :: rest)
      ∧ str_contains (pattern_base_uri p) "$1" = false)
  ∧ (∀ p : String, str_contains p "\x7b$1\x7d" = true →
      str_contains p "$1" = true)
  ∧ pattern_base_uri (base ++ "\x7b$1\x7d") = base ++ "\x7b"
  ∧ lookupStr (get_tei_prefixes [⟨some "ex", some (base ++ "\x7b$1\x7d")⟩]) "ex"
      = some (base ++ "\x7b")
  ∧ expand_uri ("ex:" ++ loc)
      (get_tei_prefixes [⟨some "ex", some (base ++ "\x7b$1\x7d")⟩])
      = (base ++ "\x7b") ++ loc := by
  have hPne : ¬ (base ++ ("\x7b$1\x7d" : String)) = "" := by
    intro hP
    have hd : (base ++ ("\x7b$1\x7d" : String)).data = ("" : String).data := by
      rw [hP]
    rw [String.data_append, brace_pattern_data] at hd
    simp at hd
  have h3 : pattern_base_uri (base ++ "\x7b$1\x7d") = base ++ "\x7b" :=
    pattern_base_uri_brace base hb
  have h4 : lookupStr (get_tei_prefixes [⟨some "ex", some (base ++ "\x7b$1\x7d")⟩]) "ex"
      = some (base ++ "\x7b") := by
    rw [get_tei_prefixes_single (base ++ "\x7b$1\x7d") hPne, h3]
  refine ⟨?_, ?_, h3, h4, ?_⟩
  · intro p hp
    have h1 : containsSub ['$', '1'] p.data = true := by
      have h := hp
      unfold str_contains at h
      rwa [dollar_one_data] at h
    obtain ⟨⟨r, hdec⟩, hfree⟩ :=
      beforeFirst_decomp ['$', '1'] p.data (by simp) h1
    have hpbu : pattern_base_uri p = String.mk (beforeFirst ['$', '1'] p.data) := by
      unfold pattern_base_uri
      rw [if_pos hp, dollar_one_data]
    refine ⟨⟨r, ?_⟩, ?_⟩
    · rw [hpbu]
      show p.data = beforeFirst ['$', '1'] p.data ++ '$' :: '1' :: r
      have hass : beforeFirst ['$', '1'] p.data ++ ['$', '1'] ++ r =
          beforeFirst ['$', '1'] p.data ++ '$' :: '1' :: r := by simp
      rw [← hass]
      exact hdec
    · rw [hpbu]
      unfold str_contains
      rw [dollar_one_data]
      exact hfree
  · intro p hp
    unfold str_contains at hp ⊢
    rw [brace_pattern_data] at hp
    rw [dollar_one_data]
    obtain ⟨b, r, hbr⟩ := containsSub_exists _ _ hp
    rw [hbr]
    have hsplit : b ++ ['\x7b', '$', '1', '\x7d'] ++ r =
        (b ++ ['\x7b']) ++ ['$', '1'] ++ ('\x7d' :: r) := by simp
    rw [hsplit]
    exact containsSub_of_append _ _ _
  · exact expand_uri_ex loc _ _ h4

/-- Witness for C9 at `base = http://ex.org/`, `loc = S`: the table maps
`ex` to `http://ex.org/\x7b` and expansion of `ex:S` yields
`http://ex.org/\x7bS`. -/
theorem C9_stray_brace_witness :
    str_contains "http://ex.org/" "$1" = false
  ∧ pattern_base_uri ("http://ex.org/" ++ "\x7b$1\x7d") = "http://ex.org/" ++ "\x7b"
  ∧ expand_uri ("ex:" ++ "S")
      (get_tei_prefixes [⟨some "ex", some ("http://ex.org/" ++ "\x7b$1\x7d")⟩])
      = ("http://ex.org/" ++ "\x7b") ++ "S" :=
  ⟨by decide, (C9_stray_brace "http://ex.org/" "S" (by decide)).2.2.1,
    (C9_stray_brace "http://ex.org/" "S" (by decide)).2.2.2.2⟩

end TeiRdfa
